import Mathlib

/-!
Verification of the go-blog static-site generator's content pipeline.

The Go source is shallowly embedded: strings are modelled as Lean
`String`/`List Char` (Go byte strings restricted to their character
content; for ASCII data the two views agree), Go `int` is `Int`, and the
stateful tree insertion `addToTree` (which mutates a slice of `*MenuItem`
through pointers and re-sorts with `sort.Slice`) is rendered as a pure
function returning the new sibling list.  `sort.Slice` with the source's
comparator is modelled as an insertion sort driven by the same comparator;
any sort that is correct for that comparator yields the same multiset and
the same sortedness facts proved here.
-/

namespace GoBlog

/-- `MenuItem` from the source: a navigation-tree node with a display
title, a slug (empty for folder nodes), a folder flag, a weight and an
ordered list of children. -/
inductive MenuItem where
  | mk (title : String) (slug : String) (isFolder : Bool) (weight : Int)
      (children : List MenuItem)

def MenuItem.title : MenuItem → String
  | .mk t _ _ _ _ => t

def MenuItem.slug : MenuItem → String
  | .mk _ s _ _ _ => s

def MenuItem.isFolder : MenuItem → Bool
  | .mk _ _ f _ _ => f

def MenuItem.weight : MenuItem → Int
  | .mk _ _ _ w _ => w

def MenuItem.children : MenuItem → List MenuItem
  | .mk _ _ _ _ c => c

/-- Replace a node's children, keeping every other field (the only
mutation the source ever applies to an existing node). -/
def MenuItem.setChildren : MenuItem → List MenuItem → MenuItem
  | .mk t s f w _, c => .mk t s f w c

instance : Inhabited MenuItem := ⟨.mk "" "" false 0 []⟩

/-- Go `strings.Title` word-boundary test (ASCII case of the stdlib
`isSeparator`): digits, letters and underscore are non-separators,
every other character separates words. -/
def goIsSeparator (c : Char) : Bool :=
  !(c.isDigit || c.isLower || c.isUpper || c == '_')

/-- Character-list worker for `strings.Title`: upper-case a character
when the previous character was a separator (start of input counts as a
separator). -/
def goTitleAux : Bool → List Char → List Char
  | _, [] => []
  | prevSep, c :: cs =>
      (if prevSep then c.toUpper else c) :: goTitleAux (goIsSeparator c) cs

/-- Go `strings.Title` (ASCII model): title-case the first letter of
every word. -/
def goTitle (s : String) : String := ⟨goTitleAux true s.data⟩

/-- Go `strings.ReplaceAll(s, "-", " ")`: the pattern is a single
character, so this is a character map. -/
def replaceDash (s : String) : String :=
  ⟨s.data.map (fun c => if c = '-' then ' ' else c)⟩

/-- Derived display title of a path segment:
`strings.Title(strings.ReplaceAll(part, "-", " "))` in the source. -/
def segTitle (seg : String) : String := goTitle (replaceDash seg)

/-- The `sort.Slice` comparator from `addToTree`: the `/`-slug node
first, then ascending weight, then folders before leaves, then
case-sensitive lexical title order. -/
def menuLess (a b : MenuItem) : Bool :=
  if a.slug = "/" then true
  else if b.slug = "/" then false
  else if a.weight ≠ b.weight then decide (a.weight < b.weight)
  else if a.isFolder ≠ b.isFolder then a.isFolder
  else decide (a.title < b.title)

/-- "May come before": the non-strict order induced by the comparator,
which is what a correct sort establishes between elements in their final
positions. -/
def goLe (a b : MenuItem) : Bool := !(menuLess b a)

/-- Insert an element into a list at the first position allowed by
`goLe`. -/
def insertLe (x : MenuItem) : List MenuItem → List MenuItem
  | [] => [x]
  | y :: ys => if goLe x y then x :: y :: ys else y :: insertLe x ys

/-- Model of `sort.Slice(nodes, less)` in `addToTree`: a comparison sort
driven by `menuLess`. -/
def sortNodes : List MenuItem → List MenuItem
  | [] => []
  | x :: xs => insertLe x (sortNodes xs)

/-- The node-matching test of `addToTree`'s search loop:
`node.Title == strings.Title(strings.ReplaceAll(currentPart, "-", " "))
&& node.IsFolder == !isLast`. -/
def nodeMatch (currentPart : String) (isLast : Bool) (n : MenuItem) : Bool :=
  n.title == segTitle currentPart && n.isFolder == !isLast

/-- The fresh node `addToTree` creates when no node matches: folders get
the derived segment title, weight 0 and empty slug; leaves get the
supplied final title, slug and weight.  Children start empty. -/
def mkNode (isLast : Bool) (currentPart slug finalTitle : String)
    (weight : Int) : MenuItem :=
  .mk (if isLast then finalTitle else segTitle currentPart)
      (if isLast then slug else "")
      (!isLast)
      (if isLast then weight else 0)
      []

mutual

/-- `addToTree` from the source: recursive descent on the path segments.
At each level, look for a node matching the segment's derived title and
kind; create (and re-sort the sibling list) when absent; for non-terminal
segments recurse into the matched node's children. -/
def addToTree (nodes : List MenuItem) (parts : List String)
    (slug finalTitle : String) (weight : Int) : List MenuItem :=
  match parts with
  | [] => nodes
  | [currentPart] =>
      if nodes.any (nodeMatch currentPart true) then nodes
      else sortNodes (nodes ++ [mkNode true currentPart slug finalTitle weight])
  | currentPart :: rest =>
      let nodes1 :=
        if nodes.any (nodeMatch currentPart false) then nodes
        else sortNodes (nodes ++ [mkNode false currentPart slug finalTitle weight])
      addWalk nodes1 currentPart rest slug finalTitle weight
termination_by (parts.length, 0, 0)

/-- The pointer update `foundNode.Children = addToTree(...)` of the
source, rendered functionally: replace the children of the first node
matching the current (non-terminal) segment. -/
def addWalk (nodes : List MenuItem) (currentPart : String)
    (rest : List String) (slug finalTitle : String) (weight : Int) :
    List MenuItem :=
  match nodes with
  | [] => []
  | n :: ns =>
      if nodeMatch currentPart false n then
        n.setChildren (addToTree n.children rest slug finalTitle weight) :: ns
      else n :: addWalk ns currentPart rest slug finalTitle weight
termination_by (rest.length, nodes.length, 1)

end

/-- One call of the site assembler into the tree builder:
`site.Menu = addToTree(site.Menu, parts, slug, title, weight)`. -/
structure Insertion where
  parts : List String
  slug : String
  title : String
  weight : Int

/-- The navigation menu after a sequence of insertions, starting from
the empty menu `site.Menu = []` as in `main`. -/
def buildMenu (ops : List Insertion) : List MenuItem :=
  ops.foldl (fun t o => addToTree t o.parts o.slug o.title o.weight) []

/-- The ordering condition claimed for a pair of siblings `a` before `b`:
the `/`-slug node precedes everything; otherwise weights are
non-decreasing, folders precede leaves at equal weight, and titles are
non-decreasing at equal weight and kind. -/
def claimPairOk (a b : MenuItem) : Prop :=
  a.slug = "/" ∨
    (b.slug ≠ "/" ∧
      (a.weight < b.weight ∨
        (a.weight = b.weight ∧
          ((a.isFolder = true ∧ b.isFolder = false) ∨
            (a.isFolder = b.isFolder ∧ a.title ≤ b.title)))))

/-- Every sibling sequence of the forest, at every depth, is ordered
pairwise by `claimPairOk`. -/
inductive ForestOrdered : List MenuItem → Prop where
  | intro (l : List MenuItem) (hp : l.Pairwise claimPairOk)
      (hc : ∀ n ∈ l, ForestOrdered n.children) : ForestOrdered l

/-- Two nodes agreeing on every field except (possibly) their children. -/
def sameFields (a b : MenuItem) : Prop :=
  a.title = b.title ∧ a.slug = b.slug ∧ a.isFolder = b.isFolder ∧
    a.weight = b.weight

/-- Size of the children is strictly below the size of the node; used to
justify recursion over the nested tree structure. -/
theorem sizeOf_children_lt (n : MenuItem) : sizeOf n.children < sizeOf n := by
  cases n with
  | mk t s f w c => simp [MenuItem.children]

/-- Frame relation between a sibling list before and after an insertion:
at most one node was added at this level, and every node present before
is still present, with title, slug, kind and weight unchanged, its
children again related recursively. -/
def Preserved (old new : List MenuItem) : Prop :=
  new.length ≤ old.length + 1 ∧
    ∀ n ∈ old, ∃ m ∈ new, sameFields n m ∧ Preserved n.children m.children
termination_by sizeOf old
decreasing_by
  exact lt_trans (sizeOf_children_lt n) (List.sizeOf_lt_of_mem ‹n ∈ old›)

/-! ### Custom inline syntax post-processing (`processCustomSyntax`)

The two regex substitution passes of `types.go` are embedded as explicit
left-to-right scanners over the character list.  Both regexes are
anchored on a literal opening (`[[` resp. `\x7b\x7bref:`), use lazy
groups whose `.` does not cross a newline, and end at a literal closing;
for such patterns leftmost-first regex matching is exactly: at the
earliest viable opening, the first group ends at the earliest admissible
separator and the match ends at the earliest closing after it, with no
newline inside.  Replaced text is not rescanned (`ReplaceAllStringFunc`
semantics). -/

/-- Go `unicode.IsSpace` restricted to ASCII, as used by
`strings.TrimSpace`: space, tab, newline, vertical tab, form feed,
carriage return. -/
def isSpc (c : Char) : Bool :=
  c = ' ' || c = '\t' || c = '\n' || c = '\x0b' || c = '\x0c' || c = '\r'

/-- Go `strings.TrimSpace` on a character list. -/
def trimSpace (cs : List Char) : List Char :=
  ((cs.dropWhile isSpc).reverse.dropWhile isSpc).reverse

/-- Go `strings.SplitN(s, sep, 2)` for a one-character separator:
`none` when the separator does not occur (`SplitN` returns one part),
otherwise the parts before and after its first occurrence. -/
def splitFirst (sep : Char) : List Char → Option (List Char × List Char)
  | [] => none
  | c :: cs =>
      if c = sep then some ([], cs)
      else
        match splitFirst sep cs with
        | none => none
        | some (a, b) => some (c :: a, b)

/-- The slug normalization of both passes:
`if !strings.HasPrefix(s, "/") { s = "/" + s }`. -/
def ensureSlash (cs : List Char) : List Char :=
  match cs with
  | '/' :: _ => cs
  | _ => '/' :: cs

/-- Index of the first `]]` in the list, provided no newline occurs
before it (the wiki-link regex's lazy group cannot cross a newline). -/
def closeIdx : List Char → Option Nat
  | [] => none
  | ']' :: ']' :: _ => some 0
  | c :: rest =>
      if c = '\n' then none else (closeIdx rest).map (· + 1)

/-- Index of the first `#`, provided no newline occurs before it (the
transclusion regex's first lazy group cannot cross a newline). -/
def hashIdx : List Char → Option Nat
  | [] => none
  | c :: rest =>
      if c = '#' then some 0
      else if c = '\n' then none
      else (hashIdx rest).map (· + 1)

/-- Index of the first `\x7d\x7d`, provided no newline occurs before it
(the transclusion regex's second lazy group cannot cross a newline). -/
def closeBraceIdx : List Char → Option Nat
  | [] => none
  | '\x7d' :: '\x7d' :: _ => some 0
  | c :: rest =>
      if c = '\n' then none else (closeBraceIdx rest).map (· + 1)

def anchorPre : String := "<a href=\"#"

def anchorMid : String :=
  "\" class=\"text-blue-600 dark:text-blue-400 font-medium transition-colors hover:text-blue-800 dark:hover:text-blue-300\">"

def anchorPost : String := "</a>"

/-- The wiki-link callback of `processCustomSyntax`: split the interior
on the first `|`, trim both parts, default the display text to the
trimmed (un-prefixed) slug, prefix the slug with `/` when missing, and
build the anchor tag. -/
def wikiReplacement (inner : List Char) : List Char :=
  match splitFirst '|' inner with
  | none =>
      anchorPre.data ++ ensureSlash (trimSpace inner) ++ anchorMid.data ++
        trimSpace inner ++ anchorPost.data
  | some (a, b) =>
      anchorPre.data ++ ensureSlash (trimSpace a) ++ anchorMid.data ++
        trimSpace b ++ anchorPost.data

/-- The wiki-link substitution pass over the rendered HTML:
`wikiLinkRegex.ReplaceAllStringFunc`. -/
def wikiScan : List Char → List Char
  | [] => []
  | '[' :: '[' :: rest =>
      match closeIdx rest with
      | some i => wikiReplacement (rest.take i) ++ wikiScan (rest.drop (i + 2))
      | none => '[' :: wikiScan ('[' :: rest)
  | c :: rest => c :: wikiScan rest
termination_by cs => cs.length
decreasing_by
  all_goals first
  | (simp [List.length_drop]; omega)
  | simp

def invalidRefPre : String := "<span class=\"text-red-500\">[Invalid Ref: "

def invalidRefPost : String := "]</span>"

def divPre : String :=
  "<div class=\"transclusion-placeholder p-4 border-l-4 border-purple-500 bg-gray-50 dark:bg-gray-800 my-4\" data-slug=\""

def divMid : String := "\" data-id=\""

def divPost : String :=
  "\"><span class=\"text-gray-400 text-sm animate-pulse\">Loading referenced content...</span></div>"

/-- The transclusion callback of `processCustomSyntax`: split the
interior on the first `#`; with no `#` emit the inline `Invalid Ref`
error span, otherwise trim both parts, prefix the slug with `/` when
missing, and build the placeholder `div` carrying `data-slug` and
`data-id`. -/
def refReplacement (inner : List Char) : List Char :=
  match splitFirst '#' inner with
  | none => invalidRefPre.data ++ inner ++ invalidRefPost.data
  | some (a, b) =>
      divPre.data ++ ensureSlash (trimSpace a) ++ divMid.data ++
        trimSpace b ++ divPost.data

/-- The transclusion substitution pass over the rendered HTML:
`refTagRegex.ReplaceAllStringFunc`.  A match needs, after the literal
`\x7b\x7bref:`, a `#` and then a `\x7d\x7d`, all on one line; with no
such extent the directive is left in place and scanning resumes one
character further. -/
def refScan : List Char → List Char
  | [] => []
  | '\x7b' :: '\x7b' :: 'r' :: 'e' :: 'f' :: ':' :: rest =>
      (match hashIdx rest with
      | some i =>
          match closeBraceIdx (rest.drop (i + 1)) with
          | some j =>
              refReplacement (rest.take (i + 1 + j)) ++
                refScan (rest.drop (i + 1 + j + 2))
          | none =>
              '\x7b' :: refScan ('\x7b' :: 'r' :: 'e' :: 'f' :: ':' :: rest)
      | none =>
          '\x7b' :: refScan ('\x7b' :: 'r' :: 'e' :: 'f' :: ':' :: rest))
  | c :: rest => c :: refScan rest
termination_by cs => cs.length
decreasing_by
  all_goals first
  | (simp [List.length_drop]; omega)
  | simp

/-- `refScan` with the provably dead `Invalid Ref` branch removed: the
placeholder is built directly from the two halves of the matched
interior. -/
def refScanSafe : List Char → List Char
  | [] => []
  | '\x7b' :: '\x7b' :: 'r' :: 'e' :: 'f' :: ':' :: rest =>
      (match hashIdx rest with
      | some i =>
          match closeBraceIdx (rest.drop (i + 1)) with
          | some j =>
              (divPre.data ++ ensureSlash (trimSpace (rest.take i)) ++
                divMid.data ++ trimSpace ((rest.drop (i + 1)).take j) ++
                divPost.data) ++
                refScanSafe (rest.drop (i + 1 + j + 2))
          | none =>
              '\x7b' :: refScanSafe ('\x7b' :: 'r' :: 'e' :: 'f' :: ':' :: rest)
      | none =>
          '\x7b' :: refScanSafe ('\x7b' :: 'r' :: 'e' :: 'f' :: ':' :: rest))
  | c :: rest => c :: refScanSafe rest
termination_by cs => cs.length
decreasing_by
  all_goals first
  | (simp [List.length_drop]; omega)
  | simp

/-- `processCustomSyntax` from `types.go`: the wiki-link pass followed
by the transclusion pass, each a regex substitution over the rendered
HTML string. -/
def processCustomSyntax (content : String) : String :=
  ⟨refScan (wikiScan content.data)⟩

/-! ### Slug derivation, title fallback, description (`main`, `types.go`) -/

/-- The `if dir == "." { dir = "" }` normalization applied to
`filepath.Dir(relPath)` in `main`. -/
def normalizeDir (dir : String) : String := if dir = "." then "" else dir

/-- `filepath.Join(dir, filename)` for an already-clean slash-separated
relative `dir`: empty `dir` yields `filename`, otherwise the two joined
with `/`. -/
def joinPath (dir file : String) : String :=
  if dir = "" then file else dir ++ "/" ++ file

/-- Slug derivation from `main`: root `index` maps to `/`, `index` in a
subdirectory maps to `/<dir>`, any other basename maps to
`/<dir>/<filename>` (with `<dir>/` absent at the root). -/
def slugFor (dir filename : String) : String :=
  if dir = "" ∧ filename = "index" then "/"
  else if filename = "index" then "/" ++ dir
  else "/" ++ joinPath dir filename

/-- The title fallback of `main`: when the metadata supplies no title
(the empty string), use the title-cased, hyphen-to-space-converted
filename, overridden to `Home` for the root slug. -/
def pageTitle (metaTitle filename slug : String) : String :=
  if metaTitle = "" then
    let t := segTitle filename
    if slug = "/" then "Home" else t
  else metaTitle

/-- The description truncation of `ProcessMarkdown`/`main`:
`if len(description) > 160 { description = description[:157] + "..." }`. -/
def truncateDescription (s : String) : String :=
  if s.length > 160 then String.mk (s.data.take 157) ++ "..." else s

/-- Description derivation: a present, non-empty `description` metadata
field is used verbatim; otherwise the first paragraph's concatenated
text is truncated.  `metaDesc = none` models an absent (or non-string)
metadata field. -/
def descriptionFor (metaDesc : Option String) (firstParaText : String) :
    String :=
  match metaDesc with
  | some d => if d ≠ "" then d else truncateDescription firstParaText
  | none => truncateDescription firstParaText

/-! ### Sitemap emission (`sitemap.go` / `generateXMLSitemap`) -/

def BaseURL : String := "https://mysite.com"

/-- Location for one slug: `BaseURL + "/#" + slug`, overridden to
`BaseURL + "/"` for the root slug. -/
def sitemapLoc (slug : String) : String :=
  if slug = "/" then BaseURL ++ "/" else BaseURL ++ "/#" ++ slug

/-- One `<url>` block of the sitemap, exactly the writes of the loop
body (`today` stands for `time.Now().Format("2006-01-02")`). -/
def sitemapEntry (today slug : String) : String :=
  "  <url>\n" ++ "    <loc>" ++ sitemapLoc slug ++ "</loc>\n" ++
    "    <lastmod>" ++ today ++ "</lastmod>\n" ++
    "    <changefreq>weekly</changefreq>\n" ++ "  </url>\n"

def sitemapHeader : String :=
  "<?xml version=\"1.0\" encoding=\"UTF-8\"?>\n<urlset xmlns=\"http://www.sitemaps.org/schemas/sitemap/0.9\">\n"

/-- `generateXMLSitemap`: header, one entry per slug in input order,
closing tag. -/
def generateXMLSitemap (today : String) (slugs : List String) : String :=
  sitemapHeader ++ String.join (slugs.map (sitemapEntry today)) ++
    "</urlset>"

/-! ### Run-level control flow of `main` (error handling) -/

/-- One event delivered to the `filepath.WalkDir` callback: an
infrastructure error for some path, a directory entry, a non-`.md`
file, or an `.md` file together with the outcome of `os.ReadFile`
(`readOk = false` means the read failed, in which case the source bytes
are `nil`). -/
inductive WalkEvent where
  | walkError (msg : String)
  | dirEntry (path : String)
  | otherFile (path : String)
  | mdFile (path : String) (readOk : Bool) (content : String)

/-- Outcome of a run of `main`: abort at the input-directory
precondition (nothing written), abort of the walk (sitemap and db.json
not written), or a completed run with the list of
(path, source-actually-processed) pairs. -/
inductive BuildResult where
  | missingInputDir
  | walkFailed (msg : String)
  | outputWritten (pages : List (String × String))

/-- The walk callback of `main`, folded over the events: an
infrastructure error is returned and aborts the walk; directories and
non-`.md` files are skipped; an `.md` file is always processed —
`source, _ := os.ReadFile(path)` discards a read error, so a file whose
read failed is processed with empty source. -/
def processEvents :
    List WalkEvent → List (String × String) →
      Except String (List (String × String))
  | [], acc => .ok acc
  | .walkError m :: _, _ => .error m
  | .dirEntry _ :: es, acc => processEvents es acc
  | .otherFile _ :: es, acc => processEvents es acc
  | .mdFile p ok c :: es, acc =>
      processEvents es (acc ++ [(p, if ok then c else "")])

/-- Run-level control flow of `main`: the `os.Stat(InputDir)` check
comes first and aborts before anything is processed or written; a walk
error aborts before `generateXMLSitemap` and the `db.json` write; a
completed walk writes both outputs. -/
def runBuild (inputDirExists : Bool) (events : List WalkEvent) :
    BuildResult :=
  if !inputDirExists then .missingInputDir
  else
    match processEvents events [] with
    | .error m => .walkFailed m
    | .ok pages => .outputWritten pages

/-! ### Substring occurrence helpers -/

/-- Whether `pat` occurs as a contiguous substring (at any position,
the end included). -/
def containsSub (pat : List Char) : List Char → Bool
  | [] => pat.isPrefixOf ([] : List Char)
  | c :: rest => pat.isPrefixOf (c :: rest) || containsSub pat rest

/-- Number of positions at which `pat` occurs as a contiguous
substring. -/
def countSub (pat : List Char) : List Char → Nat
  | [] => if pat.isPrefixOf ([] : List Char) then 1 else 0
  | c :: rest => (if pat.isPrefixOf (c :: rest) then 1 else 0) + countSub pat rest

/-- Characters that keep an internal-link slug or display text clear of
the wiki-link and transclusion delimiters: no square brackets, no pipe,
no opening brace, no newline. -/
def linkCharOk (c : Char) : Bool :=
  !(c = '[' || c = ']' || c = '|' || c = '\x7b' || c = '\n')

/-- A well-formed internal-link component: non-empty, free of delimiter
characters, and already trimmed (no leading or trailing white space). -/
def linkPartOk (s : String) : Prop :=
  s.data ≠ [] ∧ (∀ c ∈ s.data, linkCharOk c = true) ∧
    trimSpace s.data = s.data

end GoBlog

namespace GoBlog

theorem setChildren_title (n : MenuItem) (c : List MenuItem) :
    (n.setChildren c).title = n.title := by
  cases n; rfl

theorem setChildren_slug (n : MenuItem) (c : List MenuItem) :
    (n.setChildren c).slug = n.slug := by
  cases n; rfl

theorem setChildren_isFolder (n : MenuItem) (c : List MenuItem) :
    (n.setChildren c).isFolder = n.isFolder := by
  cases n; rfl

theorem setChildren_weight (n : MenuItem) (c : List MenuItem) :
    (n.setChildren c).weight = n.weight := by
  cases n; rfl

theorem setChildren_children (n : MenuItem) (c : List MenuItem) :
    (n.setChildren c).children = c := by
  cases n; rfl

theorem sameFields_refl (a : MenuItem) : sameFields a a :=
  ⟨rfl, rfl, rfl, rfl⟩

theorem sameFields_setChildren (n : MenuItem) (c : List MenuItem) :
    sameFields n (n.setChildren c) := by
  cases n; exact ⟨rfl, rfl, rfl, rfl⟩

theorem claimPairOk_congr {a a' b b' : MenuItem} (ha : sameFields a a')
    (hb : sameFields b b') (h : claimPairOk a b) : claimPairOk a' b' := by
  obtain ⟨ht, hs, hf, hw⟩ := ha
  obtain ⟨ht', hs', hf', hw'⟩ := hb
  unfold claimPairOk at h ⊢
  rw [← ht, ← hs, ← hf, ← hw, ← ht', ← hs', ← hf', ← hw']
  exact h

theorem claimPairOk_of_menuLess_true {a b : MenuItem}
    (h : menuLess a b = true) : claimPairOk a b := by
  unfold menuLess at h
  unfold claimPairOk
  by_cases hsa : a.slug = "/"
  · exact Or.inl hsa
  · rw [if_neg hsa] at h
    by_cases hsb : b.slug = "/"
    · rw [if_pos hsb] at h
      exact absurd h (by simp)
    · rw [if_neg hsb] at h
      refine Or.inr ⟨hsb, ?_⟩
      by_cases hw : a.weight = b.weight
      · rw [if_neg (fun h' => h' hw)] at h
        by_cases hf : a.isFolder = b.isFolder
        · rw [if_neg (fun h' => h' hf)] at h
          exact Or.inr ⟨hw, Or.inr ⟨hf, le_of_lt (of_decide_eq_true h)⟩⟩
        · rw [if_pos hf] at h
          refine Or.inr ⟨hw, Or.inl ⟨h, ?_⟩⟩
          cases hb : b.isFolder
          · rfl
          · rw [h, hb] at hf; exact absurd rfl hf
      · rw [if_pos hw] at h
        exact Or.inl (of_decide_eq_true h)

theorem claimPairOk_of_menuLess_false {a b : MenuItem}
    (h : menuLess a b = false) : claimPairOk b a := by
  unfold menuLess at h
  unfold claimPairOk
  by_cases hsa : a.slug = "/"
  · rw [if_pos hsa] at h
    exact absurd h (by simp)
  · rw [if_neg hsa] at h
    by_cases hsb : b.slug = "/"
    · exact Or.inl hsb
    · rw [if_neg hsb] at h
      refine Or.inr ⟨hsa, ?_⟩
      by_cases hw : a.weight = b.weight
      · rw [if_neg (fun h' => h' hw)] at h
        by_cases hf : a.isFolder = b.isFolder
        · rw [if_neg (fun h' => h' hf)] at h
          exact Or.inr ⟨hw.symm,
            Or.inr ⟨hf.symm, not_lt.mp (of_decide_eq_false h)⟩⟩
        · rw [if_pos hf] at h
          refine Or.inr ⟨hw.symm, Or.inl ⟨?_, h⟩⟩
          cases ha : b.isFolder
          · rw [h, ha] at hf; exact absurd rfl hf
          · rfl
      · rw [if_pos hw] at h
        exact Or.inl
          (lt_of_le_of_ne (not_lt.mp (of_decide_eq_false h)) (Ne.symm hw))

theorem claimPairOk_trans {a b c : MenuItem} (h1 : claimPairOk a b)
    (h2 : claimPairOk b c) : claimPairOk a c := by
  unfold claimPairOk at h1 h2 ⊢
  rcases h1 with h1 | ⟨hb, h1⟩
  · exact Or.inl h1
  · rcases h2 with h2 | ⟨hc, h2⟩
    · exact absurd h2 hb
    · refine Or.inr ⟨hc, ?_⟩
      rcases h1 with h1 | ⟨hw1, h1⟩
      · rcases h2 with h2 | ⟨hw2, _⟩
        · exact Or.inl (lt_trans h1 h2)
        · exact Or.inl (hw2 ▸ h1)
      · rcases h2 with h2 | ⟨hw2, h2⟩
        · exact Or.inl (hw1 ▸ h2)
        · refine Or.inr ⟨hw1.trans hw2, ?_⟩
          rcases h1 with ⟨hf1, hf1'⟩ | ⟨hf1, ht1⟩
          · rcases h2 with ⟨hf2, _⟩ | ⟨hf2, _⟩
            · rw [hf1'] at hf2; exact absurd hf2 (by simp)
            · exact Or.inl ⟨hf1, hf2 ▸ hf1'⟩
          · rcases h2 with ⟨hf2, hf2'⟩ | ⟨hf2, ht2⟩
            · exact Or.inl ⟨hf1.trans hf2, hf2'⟩
            · exact Or.inr ⟨hf1.trans hf2, ht1.trans ht2⟩

theorem mem_insertLe {z x : MenuItem} {l : List MenuItem} :
    z ∈ insertLe x l ↔ z = x ∨ z ∈ l := by
  induction l with
  | nil => simp [insertLe]
  | cons y ys ih =>
      unfold insertLe
      by_cases h : goLe x y = true
      · simp [h]
      · simp only [Bool.not_eq_true] at h
        simp [h, ih]
        tauto

theorem pairwise_insertLe {x : MenuItem} {l : List MenuItem}
    (h : l.Pairwise claimPairOk) :
    (insertLe x l).Pairwise claimPairOk := by
  induction l with
  | nil => simp [insertLe]
  | cons y ys ih =>
      rw [List.pairwise_cons] at h
      obtain ⟨hy, hys⟩ := h
      unfold insertLe
      by_cases hxy : goLe x y = true
      · have hxy' : menuLess y x = false := by
          unfold goLe at hxy
          simpa using hxy
        have hx : claimPairOk x y := claimPairOk_of_menuLess_false hxy'
        rw [if_pos hxy, List.pairwise_cons]
        refine ⟨?_, List.pairwise_cons.mpr ⟨hy, hys⟩⟩
        intro z hz
        rcases List.mem_cons.mp hz with rfl | hz'
        · exact hx
        · exact claimPairOk_trans hx (hy z hz')
      · have hxy' : menuLess y x = true := by
          unfold goLe at hxy
          simpa using hxy
        rw [if_neg hxy, List.pairwise_cons]
        refine ⟨?_, ih hys⟩
        intro z hz
        rcases mem_insertLe.mp hz with rfl | hz
        · exact claimPairOk_of_menuLess_true hxy'
        · exact hy z hz

theorem pairwise_sortNodes (l : List MenuItem) :
    (sortNodes l).Pairwise claimPairOk := by
  induction l with
  | nil => simp [sortNodes]
  | cons x xs ih => exact pairwise_insertLe ih

theorem mem_sortNodes {z : MenuItem} {l : List MenuItem} :
    z ∈ sortNodes l ↔ z ∈ l := by
  induction l with
  | nil => simp [sortNodes]
  | cons x xs ih =>
      unfold sortNodes
      rw [mem_insertLe, ih]
      simp

theorem length_insertLe (x : MenuItem) (l : List MenuItem) :
    (insertLe x l).length = l.length + 1 := by
  induction l with
  | nil => rfl
  | cons y ys ih =>
      unfold insertLe
      by_cases h : goLe x y = true
      · simp [h]
      · simp only [Bool.not_eq_true] at h
        simp [h, ih]

theorem length_sortNodes (l : List MenuItem) :
    (sortNodes l).length = l.length := by
  induction l with
  | nil => rfl
  | cons x xs ih => simp [sortNodes, length_insertLe, ih]

theorem addWalk_mem_sameFields {p : String} {rest : List String}
    {s t : String} {w : Int} {nodes : List MenuItem} :
    ∀ z ∈ addWalk nodes p rest s t w, ∃ y ∈ nodes, sameFields y z := by
  induction nodes with
  | nil => simp [addWalk]
  | cons n ns ih =>
      unfold addWalk
      by_cases hm : nodeMatch p false n = true
      · rw [if_pos hm]
        intro z hz
        rcases List.mem_cons.mp hz with rfl | hz'
        · exact ⟨n, List.mem_cons_self n ns, sameFields_setChildren n _⟩
        · exact ⟨z, List.mem_cons_of_mem n hz', sameFields_refl z⟩
      · rw [if_neg hm]
        intro z hz
        rcases List.mem_cons.mp hz with rfl | hz'
        · exact ⟨z, List.mem_cons_self z ns, sameFields_refl z⟩
        · obtain ⟨y, hy, hsf⟩ := ih z hz'
          exact ⟨y, List.mem_cons_of_mem n hy, hsf⟩

theorem addWalk_pairwise {p : String} {rest : List String} {s t : String}
    {w : Int} {nodes : List MenuItem} (hp : nodes.Pairwise claimPairOk) :
    (addWalk nodes p rest s t w).Pairwise claimPairOk := by
  induction nodes with
  | nil => simp [addWalk]
  | cons n ns ih =>
      rw [List.pairwise_cons] at hp
      obtain ⟨hn, hns⟩ := hp
      unfold addWalk
      by_cases hm : nodeMatch p false n = true
      · rw [if_pos hm, List.pairwise_cons]
        refine ⟨?_, hns⟩
        intro z hz
        exact claimPairOk_congr (sameFields_setChildren n _)
          (sameFields_refl z) (hn z hz)
      · rw [if_neg hm, List.pairwise_cons]
        refine ⟨?_, ih hns⟩
        intro z hz
        obtain ⟨y, hy, hsf⟩ := addWalk_mem_sameFields z hz
        exact claimPairOk_congr (sameFields_refl n) hsf (hn y hy)

theorem addWalk_children {p : String} {rest : List String} {s t : String}
    {w : Int} {nodes : List MenuItem}
    (H : ∀ ch, ForestOrdered ch → ForestOrdered (addToTree ch rest s t w))
    (hc : ∀ n ∈ nodes, ForestOrdered n.children) :
    ∀ m ∈ addWalk nodes p rest s t w, ForestOrdered m.children := by
  induction nodes with
  | nil => simp [addWalk]
  | cons n ns ih =>
      unfold addWalk
      by_cases hm : nodeMatch p false n = true
      · rw [if_pos hm]
        intro m hm'
        rcases List.mem_cons.mp hm' with rfl | h'
        · rw [setChildren_children]
          exact H n.children (hc n (List.mem_cons_self n ns))
        · exact hc m (List.mem_cons_of_mem n h')
      · rw [if_neg hm]
        intro m hm'
        rcases List.mem_cons.mp hm' with rfl | h'
        · exact hc m (List.mem_cons_self m ns)
        · exact ih (fun x hx => hc x (List.mem_cons_of_mem n hx)) m h'

theorem ForestOrdered_nil : ForestOrdered [] :=
  .intro [] List.Pairwise.nil (by simp)

theorem mkNode_children (isLast : Bool) (p s t : String) (w : Int) :
    (mkNode isLast p s t w).children = [] := rfl

theorem addToTree_ordered (parts : List String) :
    ∀ (nodes : List MenuItem) (s t : String) (w : Int),
      ForestOrdered nodes → ForestOrdered (addToTree nodes parts s t w) := by
  induction parts with
  | nil =>
      intro nodes s t w h
      simpa only [addToTree] using h
  | cons p rest ih =>
      cases rest with
      | nil =>
          intro nodes s t w h
          simp only [addToTree]
          by_cases ha : nodes.any (nodeMatch p true) = true
          · rw [if_pos ha]; exact h
          · rw [if_neg ha]
            refine .intro _ (pairwise_sortNodes _) ?_
            intro m hm'
            rcases List.mem_append.mp (mem_sortNodes.mp hm') with hm2 | hm2
            · cases h with
              | intro _ hp hc => exact hc m hm2
            · rw [List.mem_singleton.mp hm2, mkNode_children]
              exact ForestOrdered_nil
      | cons r1 rs =>
          intro nodes s t w h
          simp only [addToTree]
          have h1 : ForestOrdered
              (if nodes.any (nodeMatch p false) = true then nodes
               else sortNodes (nodes ++ [mkNode false p s t w])) := by
            by_cases ha : nodes.any (nodeMatch p false) = true
            · rw [if_pos ha]; exact h
            · rw [if_neg ha]
              refine .intro _ (pairwise_sortNodes _) ?_
              intro m hm'
              rcases List.mem_append.mp (mem_sortNodes.mp hm') with hm2 | hm2
              · cases h with
                | intro _ hp hc => exact hc m hm2
              · rw [List.mem_singleton.mp hm2, mkNode_children]
                exact ForestOrdered_nil
          cases h1 with
          | intro _ hp1 hc1 =>
              exact .intro _ (addWalk_pairwise hp1)
                (addWalk_children (fun ch hch => ih ch s t w hch) hc1)

theorem buildMenu_ordered_aux (ops : List Insertion) :
    ∀ init, ForestOrdered init →
      ForestOrdered
        (ops.foldl (fun t o => addToTree t o.parts o.slug o.title o.weight)
          init) := by
  induction ops with
  | nil => intro init h; exact h
  | cons o os ih =>
      intro init h
      exact ih _ (addToTree_ordered o.parts init o.slug o.title o.weight h)

/-- C1: every navigation tree produced by any sequence of `addToTree`
insertions (starting from the empty menu, as in `main`) has every
sibling sequence — the root-level one in particular — ordered so that
the `/`-slug node comes first, the rest are non-decreasing in weight,
folders precede leaves at equal weight, and titles are non-decreasing
(case-sensitively) at equal weight and kind. -/
theorem menu_ordering_invariant (ops : List Insertion) :
    ForestOrdered (buildMenu ops) :=
  buildMenu_ordered_aux ops [] ForestOrdered_nil

theorem Preserved_refl (l : List MenuItem) : Preserved l l := by
  unfold Preserved
  exact ⟨Nat.le_succ _,
    fun n hn => ⟨n, hn, sameFields_refl n, Preserved_refl n.children⟩⟩
termination_by sizeOf l
decreasing_by
  exact lt_trans (sizeOf_children_lt n) (List.sizeOf_lt_of_mem hn)

theorem addWalk_preserves {p : String} {rest : List String} {s t : String}
    {w : Int} (H : ∀ ch, Preserved ch (addToTree ch rest s t w)) :
    ∀ nodes : List MenuItem,
      (addWalk nodes p rest s t w).length = nodes.length ∧
      ∀ y ∈ nodes, ∃ z ∈ addWalk nodes p rest s t w,
        sameFields y z ∧ Preserved y.children z.children := by
  intro nodes
  induction nodes with
  | nil =>
      constructor
      · simp [addWalk]
      · simp
  | cons n ns ih =>
      unfold addWalk
      by_cases hm : nodeMatch p false n = true
      · rw [if_pos hm]
        constructor
        · simp
        · intro y hy
          rcases List.mem_cons.mp hy with rfl | hy'
          · refine ⟨y.setChildren (addToTree y.children rest s t w),
              List.mem_cons_self _ _, sameFields_setChildren y _, ?_⟩
            rw [setChildren_children]
            exact H y.children
          · exact ⟨y, List.mem_cons_of_mem _ hy', sameFields_refl y,
              Preserved_refl y.children⟩
      · rw [if_neg hm]
        constructor
        · simp [ih.1]
        · intro y hy
          rcases List.mem_cons.mp hy with rfl | hy'
          · exact ⟨y, List.mem_cons_self _ _, sameFields_refl y,
              Preserved_refl y.children⟩
          · obtain ⟨z, hz, hsf, hpr⟩ := ih.2 y hy'
            exact ⟨z, List.mem_cons_of_mem _ hz, hsf, hpr⟩

theorem addToTree_preserved (parts : List String) :
    ∀ (nodes : List MenuItem) (s t : String) (w : Int),
      Preserved nodes (addToTree nodes parts s t w) := by
  induction parts with
  | nil =>
      intro nodes s t w
      simpa only [addToTree] using Preserved_refl nodes
  | cons p rest ih =>
      cases rest with
      | nil =>
          intro nodes s t w
          simp only [addToTree]
          by_cases ha : nodes.any (nodeMatch p true) = true
          · rw [if_pos ha]; exact Preserved_refl nodes
          · rw [if_neg ha]
            unfold Preserved
            refine ⟨?_, ?_⟩
            · rw [length_sortNodes]; simp
            · intro n hn
              exact ⟨n, mem_sortNodes.mpr (List.mem_append_left _ hn),
                sameFields_refl n, Preserved_refl n.children⟩
      | cons r1 rs =>
          intro nodes s t w
          simp only [addToTree]
          by_cases ha : nodes.any (nodeMatch p false) = true
          · rw [if_pos ha]
            obtain ⟨hlen, hmem⟩ :=
              addWalk_preserves (fun ch => ih ch s t w) nodes
            unfold Preserved
            exact ⟨by rw [hlen]; exact Nat.le_succ _, hmem⟩
          · rw [if_neg ha]
            obtain ⟨hlen, hmem⟩ :=
              addWalk_preserves (fun ch => ih ch s t w)
                (sortNodes (nodes ++ [mkNode false p s t w]))
            unfold Preserved
            refine ⟨?_, ?_⟩
            · rw [hlen, length_sortNodes]; simp
            · intro y hy
              exact hmem y (mem_sortNodes.mpr (List.mem_append_left _ hy))

/-- C10: `addToTree` never removes or mutates existing nodes — every
node present before an insertion is still present afterwards with its
title, slug, folder flag and weight unchanged (only sibling order and
folder children may change), at most one new node is created per tree
level, and a call with an empty path-segment list returns the tree
unchanged. -/
theorem addToTree_frame (nodes : List MenuItem) (parts : List String)
    (s t : String) (w : Int) :
    Preserved nodes (addToTree nodes parts s t w) ∧
      addToTree nodes [] s t w = nodes :=
  ⟨addToTree_preserved parts nodes s t w, by simp only [addToTree]⟩

theorem string_ext {s t : String} (h : s.data = t.data) : s = t := by
  cases s; cases t; exact congrArg String.mk h

/-- C2: the slug is a pure function of the document's normalized
relative directory and its basename: `index` at the root yields `/`,
`index` in directory `d` yields `/d`, and any other basename `f` yields
`/d/f` (and `/f` at the root). -/
theorem slug_derivation (d f : String) :
    slugFor (normalizeDir ".") "index" = "/" ∧
    (d ≠ "" → slugFor d "index" = "/" ++ d) ∧
    (f ≠ "index" →
      slugFor d f = if d = "" then "/" ++ f else "/" ++ d ++ "/" ++ f) := by
  refine ⟨by decide, fun hd => ?_, fun hf => ?_⟩
  · unfold slugFor
    rw [if_neg (fun h => hd h.1), if_pos rfl]
  · unfold slugFor joinPath
    rw [if_neg (fun h => hf h.2), if_neg hf]
    by_cases hd : d = ""
    · rw [if_pos hd, if_pos hd]
    · rw [if_neg hd, if_neg hd]
      apply string_ext
      simp [String.data_append]

/-- Witness for C2 at concrete inputs. -/
theorem slug_derivation_witness :
    slugFor "docs" "index" = "/docs" ∧
      slugFor "docs" "guide" = "/docs/guide" := by
  have h := slug_derivation "docs" "guide"
  refine ⟨h.2.1 (by decide), ?_⟩
  rw [h.2.2 (by decide)]
  decide

/-- C4: when no non-empty description metadata is supplied, a first
paragraph text longer than 160 characters is truncated to exactly 160
characters — its first 157 characters plus the three-character ellipsis
`...` — and a text of at most 160 characters is used unchanged. -/
theorem description_truncation (d : Option String) (p : String)
    (hd : d = none ∨ d = some "") :
    (p.length > 160 →
      (descriptionFor d p).length = 160 ∧
      (descriptionFor d p).data = p.data.take 157 ++ "...".data ∧
      "...".data <:+ (descriptionFor d p).data) ∧
    (p.length ≤ 160 → descriptionFor d p = p) := by
  have hdesc : descriptionFor d p = truncateDescription p := by
    rcases hd with rfl | rfl
    · rfl
    · simp [descriptionFor]
  rw [hdesc]
  constructor
  · intro hlong
    unfold truncateDescription
    rw [if_pos hlong]
    have hlen : (p.data.take 157).length = 157 := by
      rw [List.length_take]
      have : 157 ≤ p.data.length := by
        have : p.length = p.data.length := rfl
        omega
      omega
    refine ⟨?_, ?_, ?_⟩
    · rw [String.length_append]
      have h1 : (String.mk (p.data.take 157)).length = (p.data.take 157).length := rfl
      rw [h1, hlen]
      rfl
    · rw [String.data_append]
    · exact ⟨(String.mk (p.data.take 157)).data, by rw [String.data_append]⟩
  · intro hshort
    unfold truncateDescription
    rw [if_neg (by omega)]

/-- Witness for C4: a 161-character paragraph is cut to 160 with the
ellipsis; a short paragraph is unchanged. -/
theorem description_truncation_witness :
    (descriptionFor none (String.mk (List.replicate 161 'a'))).length = 160 ∧
      descriptionFor none "short paragraph" = "short paragraph" := by
  have h1 := description_truncation none (String.mk (List.replicate 161 'a'))
    (Or.inl rfl)
  have h2 := description_truncation none "short paragraph" (Or.inl rfl)
  have hlen : (String.mk (List.replicate 161 'a')).length = 161 := by
    show (List.replicate 161 'a').length = 161
    simp
  exact ⟨(h1.1 (by omega)).1, h2.2 (by decide)⟩

theorem isPrefixOf_nil_right {pat : List Char} (h : pat ≠ []) :
    pat.isPrefixOf ([] : List Char) = false := by
  cases pat with
  | nil => exact absurd rfl h
  | cons p ps => rfl

theorem isPrefixOf_append_long (pat : List Char) :
    ∀ x y : List Char, pat.length ≤ x.length →
      pat.isPrefixOf (x ++ y) = pat.isPrefixOf x := by
  induction pat with
  | nil => intro x y _; simp [List.isPrefixOf]
  | cons p ps ih =>
      intro x y h
      cases x with
      | nil => simp at h
      | cons c xs =>
          show (p == c && ps.isPrefixOf (xs ++ y)) =
            (p == c && ps.isPrefixOf xs)
          rw [ih xs y (by simpa using h)]

theorem isPrefixOf_head_ne {p c : Char} (ps l : List Char) (h : p ≠ c) :
    (p :: ps).isPrefixOf (c :: l) = false := by
  show (p == c && ps.isPrefixOf l) = false
  rw [show (p == c) = false from by simpa using h, Bool.false_and]

theorem isPrefixOf_short (pat : List Char) :
    ∀ x : List Char, x.length < pat.length → pat.isPrefixOf x = false := by
  induction pat with
  | nil => intro x h; simp at h
  | cons p ps ih =>
      intro x h
      cases x with
      | nil => rfl
      | cons c xs =>
          show (p == c && ps.isPrefixOf xs) = false
          rw [ih xs (by simpa using h), Bool.and_false]

theorem countSub_nil {pat : List Char} (h : pat ≠ []) :
    countSub pat [] = 0 := by
  rw [countSub, isPrefixOf_nil_right h]
  rfl

theorem countSub_cons (pat : List Char) (c : Char) (rest : List Char) :
    countSub pat (c :: rest) =
      (if pat.isPrefixOf (c :: rest) = true then 1 else 0) +
        countSub pat rest := rfl

theorem countSub_zero_of_head_ne (ps x : List Char) (ch : Char)
    (h : ∀ c ∈ x, c ≠ ch) : countSub (ch :: ps) x = 0 := by
  induction x with
  | nil => exact countSub_nil (by simp)
  | cons c rest ih =>
      rw [countSub_cons,
        isPrefixOf_head_ne ps rest (Ne.symm (h c (List.mem_cons_self c rest))),
        ih (fun z hz => h z (List.mem_cons_of_mem c hz))]
      rfl

/-- Occurrence counting distributes over append when no occurrence of
the pattern can straddle the boundary. -/
theorem countSub_append (pat : List Char) (hp : pat ≠ []) :
    ∀ x y : List Char,
      (∀ t : List Char, t <:+ x → t ≠ [] → t.length < pat.length →
        pat.isPrefixOf (t ++ y) = false) →
      countSub pat (x ++ y) = countSub pat x + countSub pat y := by
  intro x
  induction x with
  | nil =>
      intro y _
      rw [List.nil_append, countSub_nil hp]
      omega
  | cons c rest ih =>
      intro y hb
      rw [List.cons_append, countSub_cons, countSub_cons,
        ih y (fun t hs hne hlen =>
          hb t (hs.trans (List.suffix_cons c rest)) hne hlen)]
      have hhead :
          (if pat.isPrefixOf (c :: (rest ++ y)) = true then 1 else 0) =
            (if pat.isPrefixOf (c :: rest) = true then 1 else 0) := by
        by_cases hl : pat.length ≤ (c :: rest).length
        · rw [show c :: (rest ++ y) = (c :: rest) ++ y from rfl,
            isPrefixOf_append_long pat (c :: rest) y hl]
        · push_neg at hl
          rw [show c :: (rest ++ y) = (c :: rest) ++ y from rfl,
            hb (c :: rest) (List.suffix_refl _) (by simp) hl,
            isPrefixOf_short pat (c :: rest) hl]
      rw [hhead]
      omega

theorem suffix_head_ne {x : List Char} {ch : Char}
    (h : ∀ c ∈ x.drop (x.length - 4), c ≠ ch) :
    ∀ t : List Char, t <:+ x → t ≠ [] → t.length < 5 →
      t.head? ≠ some ch := by
  intro t hs hne hlen hhead
  cases t with
  | nil => exact hne rfl
  | cons c ts =>
      have hc : c = ch := by simpa using hhead
      obtain ⟨pre, hpre⟩ := hs
      have hlx : x.length = pre.length + (ts.length + 1) := by
        rw [← hpre]
        simp [List.length_append]
      have hk : x.length - 4 ≤ pre.length := by
        simp only [List.length_cons] at hlen
        omega
      have hdrop : x.drop (x.length - 4) =
          pre.drop (x.length - 4) ++ c :: ts := by
        have hstep :=
          @List.drop_append_of_le_length Char pre (c :: ts) (x.length - 4) hk
        rw [hpre] at hstep
        exact hstep
      refine h c ?_ hc
      rw [hdrop]
      exact List.mem_append_right _ (List.mem_cons_self c ts)

theorem suffix_head_ne_of_not_mem {x : List Char} {ch : Char}
    (h : ∀ c ∈ x, c ≠ ch) :
    ∀ t : List Char, t <:+ x → t ≠ [] → t.length < 5 →
      t.head? ≠ some ch := by
  intro t hs hne _ hhead
  cases t with
  | nil => exact hne rfl
  | cons c ts =>
      have hc : c = ch := by simpa using hhead
      exact h c (hs.subset (List.mem_cons_self c ts)) hc

theorem urlTag_no_cross {x : List Char} (y : List Char)
    (hx : ∀ t : List Char, t <:+ x → t ≠ [] → t.length < 5 →
      t.head? ≠ some '<') :
    ∀ t : List Char, t <:+ x → t ≠ [] → t.length < ("<url>".data).length →
      ("<url>".data).isPrefixOf (t ++ y) = false := by
  intro t hs hne hlen
  rw [show ("<url>".data).length = 5 from rfl] at hlen
  cases t with
  | nil => exact absurd rfl hne
  | cons c ts =>
      have hc : c ≠ '<' := by
        intro hcc
        exact hx (c :: ts) hs hne hlen (by rw [hcc]; rfl)
      rw [show ("<url>".data) = '<' :: 'u' :: 'r' :: 'l' :: '>' :: [] from rfl]
      exact isPrefixOf_head_ne _ _ (Ne.symm hc)

/-- Split an occurrence count at a boundary whose left side ends in a
literal chunk with no `<` among its last four characters. -/
theorem countSub_chunk_append (x y : List Char)
    (hx4 : ∀ c ∈ x.drop (x.length - 4), c ≠ '<') :
    countSub "<url>".data (x ++ y) =
      countSub "<url>".data x + countSub "<url>".data y :=
  countSub_append "<url>".data (by decide) x y
    (urlTag_no_cross y (suffix_head_ne hx4))

/-- Split an occurrence count at a boundary whose left side contains no
`<` at all. -/
theorem countSub_var_append (x y : List Char)
    (hx : ∀ c ∈ x, c ≠ '<') :
    countSub "<url>".data (x ++ y) =
      countSub "<url>".data x + countSub "<url>".data y :=
  countSub_append "<url>".data (by decide) x y
    (urlTag_no_cross y (suffix_head_ne_of_not_mem hx))

theorem countSub_urlTag_zero {x : List Char} (hx : ∀ c ∈ x, c ≠ '<') :
    countSub "<url>".data x = 0 := by
  rw [show ("<url>".data) = '<' :: ('u' :: 'r' :: 'l' :: '>' :: []) from rfl]
  exact countSub_zero_of_head_ne _ x '<' hx

theorem sitemapLoc_no_lt (slug : String) (hS : ∀ c ∈ slug.data, c ≠ '<') :
    ∀ c ∈ (sitemapLoc slug).data, c ≠ '<' := by
  intro c hc
  unfold sitemapLoc at hc
  by_cases h : slug = "/"
  · rw [if_pos h] at hc
    exact (by decide : ∀ z ∈ (BaseURL ++ "/").data, z ≠ '<') c hc
  · rw [if_neg h, String.data_append, String.data_append] at hc
    rcases List.mem_append.mp hc with h1 | h1
    · rcases List.mem_append.mp h1 with h2 | h2
      · exact (by decide : ∀ z ∈ BaseURL.data, z ≠ '<') c h2
      · exact (by decide : ∀ z ∈ ("/#" : String).data, z ≠ '<') c h2
    · exact hS c h1

set_option maxRecDepth 4096 in
/-- A single sitemap entry contains exactly one `<url>` occurrence when
the date and the slug are free of `<`. -/
theorem countSub_entry (today slug : String)
    (hT : ∀ c ∈ today.data, c ≠ '<') (hS : ∀ c ∈ slug.data, c ≠ '<') :
    countSub "<url>".data (sitemapEntry today slug).data = 1 := by
  have hloc := sitemapLoc_no_lt slug hS
  have hsplit : (sitemapEntry today slug).data =
      ("  <url>\n" : String).data ++ (("    <loc>" : String).data ++
        ((sitemapLoc slug).data ++ (("</loc>\n" : String).data ++
          (("    <lastmod>" : String).data ++ (today.data ++
            (("</lastmod>\n" : String).data ++
              (("    <changefreq>weekly</changefreq>\n" : String).data ++
                ("  </url>\n" : String).data))))))) := by
    simp [sitemapEntry, String.data_append]
  rw [hsplit,
    countSub_chunk_append _ _ (by decide),
    countSub_chunk_append _ _ (by decide),
    countSub_var_append _ _ hloc,
    countSub_chunk_append _ _ (by decide),
    countSub_chunk_append _ _ (by decide),
    countSub_var_append _ _ hT,
    countSub_chunk_append _ _ (by decide),
    countSub_chunk_append _ _ (by decide),
    countSub_urlTag_zero hloc, countSub_urlTag_zero hT]
  decide

/-- Any short non-empty suffix of an entry lies inside its final
literal chunk, so no `<url>` occurrence can straddle an entry's right
boundary. -/
theorem entry_no_cross (today slug : String) (y : List Char) :
    ∀ t : List Char, t <:+ (sitemapEntry today slug).data → t ≠ [] →
      t.length < ("<url>".data).length →
      ("<url>".data).isPrefixOf (t ++ y) = false := by
  intro t hs hne hlen
  have hlast : (sitemapEntry today slug).data =
      ("  <url>\n" ++ "    <loc>" ++ sitemapLoc slug ++ "</loc>\n" ++
        "    <lastmod>" ++ today ++ "</lastmod>\n" ++
        "    <changefreq>weekly</changefreq>\n").data ++
        ("  </url>\n" : String).data := String.data_append _ _
  rw [hlast] at hs
  rw [show ("<url>".data).length = 5 from rfl] at hlen
  have hs' : t <:+ ("  </url>\n" : String).data := by
    rw [List.suffix_iff_eq_drop] at hs
    rw [List.length_append,
      show (("  </url>\n" : String).data).length = 9 from rfl] at hs
    rw [show (("  <url>\n" ++ "    <loc>" ++ sitemapLoc slug ++
        "</loc>\n" ++ "    <lastmod>" ++ today ++ "</lastmod>\n" ++
        "    <changefreq>weekly</changefreq>\n").data).length + 9 -
        t.length =
      (("  <url>\n" ++ "    <loc>" ++ sitemapLoc slug ++ "</loc>\n" ++
        "    <lastmod>" ++ today ++ "</lastmod>\n" ++
        "    <changefreq>weekly</changefreq>\n").data).length +
        (9 - t.length) from by omega, List.drop_append] at hs
    rw [hs]
    exact List.drop_suffix _ _
  exact urlTag_no_cross y (suffix_head_ne (by decide)) t hs' hne hlen

/-- The entry sequence followed by the closing tag contains exactly one
`<url>` occurrence per slug. -/
theorem countSub_body (today : String)
    (hT : ∀ c ∈ today.data, c ≠ '<') :
    ∀ slugs : List String, (∀ s ∈ slugs, ∀ c ∈ s.data, c ≠ '<') →
      countSub "<url>".data
        ((String.join (slugs.map (sitemapEntry today))).data ++
          ("</urlset>" : String).data) = slugs.length := by
  intro slugs
  induction slugs with
  | nil =>
      intro _
      rw [show (String.join (([] : List String).map (sitemapEntry today))).data
        = [] from by simp]
      decide
  | cons s rest ih =>
      intro hall
      have hdata : (String.join ((s :: rest).map (sitemapEntry today))).data =
          (sitemapEntry today s).data ++
            (String.join (rest.map (sitemapEntry today))).data := by
        simp [String.data_join]
      rw [hdata, List.append_assoc,
        countSub_append "<url>".data (by decide) _ _ (entry_no_cross today s _),
        countSub_entry today s hT (hall s (List.mem_cons_self s rest)),
        ih (fun z hz => hall z (List.mem_cons_of_mem s hz))]
      simp only [List.length_cons]
      omega

/-- C5: the sitemap is the header, then exactly one `<url>` entry per
input slug in input order, then the closing tag — for `<`-free dates
and slugs the emitted string contains exactly `slugs.length`
occurrences of `<url>`; the root slug's location is the base URL with a
trailing slash and contains no `#`, and every other slug's location is
the base URL plus `/#` plus the slug. -/
theorem sitemap_entries (today : String) (slugs : List String) :
    generateXMLSitemap today slugs =
      sitemapHeader ++ String.join (slugs.map (sitemapEntry today)) ++
        "</urlset>" ∧
    (slugs.map (sitemapEntry today)).length = slugs.length ∧
    ((∀ c ∈ today.data, c ≠ '<') → (∀ s ∈ slugs, ∀ c ∈ s.data, c ≠ '<') →
      countSub "<url>".data (generateXMLSitemap today slugs).data =
        slugs.length) ∧
    sitemapLoc "/" = BaseURL ++ "/" ∧
    (∀ c ∈ (sitemapLoc "/").data, c ≠ '#') ∧
    (∀ s : String, s ≠ "/" →
      sitemapLoc s = BaseURL ++ "/#" ++ s ∧ '#' ∈ (sitemapLoc s).data) := by
  refine ⟨rfl, List.length_map _ _, fun hT hS => ?_, by decide, by decide,
    fun s hs => ?_⟩
  · have hdata : (generateXMLSitemap today slugs).data =
        sitemapHeader.data ++
          ((String.join (slugs.map (sitemapEntry today))).data ++
            ("</urlset>" : String).data) := by
      simp [generateXMLSitemap, String.data_append]
    rw [hdata, countSub_chunk_append _ _ (by decide),
      countSub_body today hT slugs hS,
      show countSub "<url>".data sitemapHeader.data = 0 from by decide]
    omega
  · have hloc : sitemapLoc s = BaseURL ++ "/#" ++ s := by
      unfold sitemapLoc
      rw [if_neg hs]
    refine ⟨hloc, ?_⟩
    rw [hloc, String.data_append, String.data_append]
    exact List.mem_append_left _ (List.mem_append_right _ (by decide))

set_option maxRecDepth 8192 in
/-- Witness for C5 at concrete inputs: with two slugs the emitted
sitemap contains exactly two `<url>` occurrences, and the non-root
slug's location carries the `#` fragment. -/
theorem sitemap_entries_witness :
    countSub "<url>".data
        (generateXMLSitemap "2026-01-01" ["/", "/guide"]).data = 2 ∧
    sitemapLoc "/guide" = BaseURL ++ "/#" ++ "/guide" ∧
      '#' ∈ (sitemapLoc "/guide").data := by
  have h := sitemap_entries "2026-01-01" ["/", "/guide"]
  exact ⟨h.2.2.1 (by decide) (by decide), h.2.2.2.2.2 "/guide" (by decide)⟩

/-- C7 (code-bug evidence): a document whose `os.ReadFile` fails does
not abort the run — `main` discards the read error (`source, _ :=
os.ReadFile(path)`), processes the document with empty source, completes
the walk, and writes the outputs; the claimed abort-with-no-output never
happens.  The missing-input-directory precondition, by contrast, is
checked first, as claimed. -/
theorem read_error_still_writes_output :
    runBuild true [WalkEvent.mdFile "content/broken.md" false "unreadable"]
        = BuildResult.outputWritten [("content/broken.md", "")] ∧
    (∀ events : List WalkEvent,
      runBuild false events = BuildResult.missingInputDir) ∧
    (∀ m : String, ∀ events : List WalkEvent,
      runBuild true (WalkEvent.walkError m :: events)
        = BuildResult.walkFailed m) :=
  ⟨rfl, fun _ => rfl, fun _ _ => rfl⟩

/-- C8: when the metadata supplies no title (the empty string), the
page title is the filename with hyphens replaced by spaces and then
title-cased, except that the root slug `/` receives the literal title
`Home`; a non-empty metadata title is used as-is. -/
theorem title_fallback (f s : String) :
    (pageTitle "" f s =
      if s = "/" then "Home" else goTitle (replaceDash f)) ∧
    pageTitle "" f "/" = "Home" ∧
    (∀ t : String, t ≠ "" → pageTitle t f s = t) := by
  refine ⟨rfl, rfl, fun t ht => ?_⟩
  unfold pageTitle
  rw [if_neg ht]

/-- Witness for C8 at concrete inputs. -/
theorem title_fallback_witness :
    pageTitle "" "my-cool-page" "/my-cool-page" = "My Cool Page" ∧
    pageTitle "" "anything" "/" = "Home" ∧
    pageTitle "Custom" "x" "/y" = "Custom" := by
  have h1 := title_fallback "my-cool-page" "/my-cool-page"
  have h2 := title_fallback "anything" "/"
  have h3 := title_fallback "x" "/y"
  refine ⟨?_, h2.2.1, h3.2.2 "Custom" (by decide)⟩
  rw [h1.1]
  decide

theorem hashIdx_none (cs : List Char) (h : ∀ c ∈ cs, c ≠ '#') :
    hashIdx cs = none := by
  induction cs with
  | nil => rfl
  | cons c rest ih =>
      rw [hashIdx, if_neg (h c (List.mem_cons_self c rest))]
      by_cases hn : c = '\n'
      · rw [if_pos hn]
      · rw [if_neg hn, ih (fun x hx => h x (List.mem_cons_of_mem c hx))]
        rfl

theorem hashIdx_spec (cs : List Char) :
    ∀ i : Nat, hashIdx cs = some i →
      ∃ a b, cs = a ++ '#' :: b ∧ a.length = i ∧ ∀ c ∈ a, c ≠ '#' := by
  induction cs with
  | nil => intro i h; exact absurd h (by simp [hashIdx])
  | cons c rest ih =>
      intro i h
      rw [hashIdx] at h
      by_cases hc : c = '#'
      · rw [if_pos hc] at h
        have hi : i = 0 := by simpa using h.symm
        refine ⟨[], rest, ?_, by simp [hi], by simp⟩
        rw [hc]
        rfl
      · rw [if_neg hc] at h
        by_cases hn : c = '\n'
        · rw [if_pos hn] at h
          exact absurd h (by simp)
        · rw [if_neg hn] at h
          cases hr : hashIdx rest with
          | none => rw [hr] at h; exact absurd h (by simp)
          | some i' =>
              rw [hr] at h
              obtain ⟨a, b, hab, hlen, hno⟩ := ih i' hr
              have hi : i = i' + 1 := by
                simp at h
                omega
              refine ⟨c :: a, b, ?_, by simp [hlen, hi], ?_⟩
              · rw [List.cons_append, ← hab]
              · intro x hx
                rcases List.mem_cons.mp hx with rfl | hx'
                · exact hc
                · exact hno x hx'

theorem splitFirst_none (sep : Char) (l : List Char)
    (h : ∀ c ∈ l, c ≠ sep) : splitFirst sep l = none := by
  induction l with
  | nil => rfl
  | cons c rest ih =>
      rw [splitFirst, if_neg (h c (List.mem_cons_self c rest)),
        ih (fun x hx => h x (List.mem_cons_of_mem c hx))]

theorem splitFirst_append (sep : Char) (a x : List Char)
    (h : ∀ c ∈ a, c ≠ sep) :
    splitFirst sep (a ++ sep :: x) = some (a, x) := by
  induction a with
  | nil => rw [List.nil_append, splitFirst, if_pos rfl]
  | cons c a' ih =>
      rw [List.cons_append, splitFirst,
        if_neg (h c (List.mem_cons_self c a')),
        ih (fun y hy => h y (List.mem_cons_of_mem c hy))]

theorem closeIdx_cons_ne (c : Char) (rest : List Char) (hc : c ≠ ']')
    (hn : c ≠ '\n') :
    closeIdx (c :: rest) = (closeIdx rest).map (· + 1) := by
  rw [closeIdx.eq_def]
  split
  · simp_all
  · simp_all
  · rename_i c' rest' heq
    injection heq with h1 h2
    subst h1; subst h2
    rw [if_neg hn]

theorem closeIdx_append (l r : List Char)
    (h : ∀ c ∈ l, c ≠ ']' ∧ c ≠ '\n') :
    closeIdx (l ++ ']' :: ']' :: r) = some l.length := by
  induction l with
  | nil => rfl
  | cons c l' ih =>
      have hc := h c (List.mem_cons_self c l')
      rw [List.cons_append, closeIdx_cons_ne c _ hc.1 hc.2,
        ih (fun x hx => h x (List.mem_cons_of_mem c hx))]
      rfl

theorem wikiScan_nil : wikiScan [] = [] := by
  rw [wikiScan.eq_def]

theorem wikiScan_open (rest : List Char) :
    wikiScan ('[' :: '[' :: rest) =
      (match closeIdx rest with
      | some i => wikiReplacement (rest.take i) ++ wikiScan (rest.drop (i + 2))
      | none => '[' :: wikiScan ('[' :: rest)) := by
  rw [wikiScan.eq_def]
  rfl

theorem wikiScan_cons_ne (c : Char) (rest : List Char) (hc : c ≠ '[') :
    wikiScan (c :: rest) = c :: wikiScan rest := by
  rw [wikiScan.eq_def]
  split
  · simp_all
  · simp_all
  · rename_i c' rest' heq
    injection heq with h1 h2
    subst h1; subst h2
    rfl

theorem wikiScan_id (cs : List Char) (h : ∀ c ∈ cs, c ≠ '[') :
    wikiScan cs = cs := by
  induction cs with
  | nil => exact wikiScan_nil
  | cons c rest ih =>
      rw [wikiScan_cons_ne c rest (h c (List.mem_cons_self c rest)),
        ih (fun x hx => h x (List.mem_cons_of_mem c hx))]

theorem refScan_nil : refScan [] = [] := by
  rw [refScan.eq_def]

theorem refScan_open (rest : List Char) :
    refScan ('\x7b' :: '\x7b' :: 'r' :: 'e' :: 'f' :: ':' :: rest) =
      (match hashIdx rest with
      | some i =>
          match closeBraceIdx (rest.drop (i + 1)) with
          | some j =>
              refReplacement (rest.take (i + 1 + j)) ++
                refScan (rest.drop (i + 1 + j + 2))
          | none =>
              '\x7b' :: refScan ('\x7b' :: 'r' :: 'e' :: 'f' :: ':' :: rest)
      | none =>
          '\x7b' :: refScan ('\x7b' :: 'r' :: 'e' :: 'f' :: ':' :: rest)) := by
  rw [refScan.eq_def]
  rfl

theorem refScan_cons_not_open (c : Char) (rest : List Char)
    (h : ¬ ("\x7b\x7bref:".data.isPrefixOf (c :: rest) = true)) :
    refScan (c :: rest) = c :: refScan rest := by
  rw [refScan.eq_def]
  split
  · simp_all
  · rename_i rest' heq
    refine absurd ?_ h
    rw [heq, show ("\x7b\x7bref:".data) =
      '\x7b' :: '\x7b' :: 'r' :: 'e' :: 'f' :: ':' :: ([] : List Char)
      from rfl]
    simp [List.isPrefixOf]
  · rename_i c' rest' heq
    injection heq with h1 h2
    subst h1; subst h2
    rfl

theorem refScanSafe_nil : refScanSafe [] = [] := by
  rw [refScanSafe.eq_def]

theorem refScanSafe_open (rest : List Char) :
    refScanSafe ('\x7b' :: '\x7b' :: 'r' :: 'e' :: 'f' :: ':' :: rest) =
      (match hashIdx rest with
      | some i =>
          match closeBraceIdx (rest.drop (i + 1)) with
          | some j =>
              (divPre.data ++ ensureSlash (trimSpace (rest.take i)) ++
                divMid.data ++ trimSpace ((rest.drop (i + 1)).take j) ++
                divPost.data) ++
                refScanSafe (rest.drop (i + 1 + j + 2))
          | none =>
              '\x7b' :: refScanSafe ('\x7b' :: 'r' :: 'e' :: 'f' :: ':' :: rest)
      | none =>
          '\x7b' :: refScanSafe ('\x7b' :: 'r' :: 'e' :: 'f' :: ':' :: rest)) := by
  rw [refScanSafe.eq_def]
  rfl

theorem refScanSafe_cons_not_open (c : Char) (rest : List Char)
    (h : ¬ ("\x7b\x7bref:".data.isPrefixOf (c :: rest) = true)) :
    refScanSafe (c :: rest) = c :: refScanSafe rest := by
  rw [refScanSafe.eq_def]
  split
  · simp_all
  · rename_i rest' heq
    refine absurd ?_ h
    rw [heq, show ("\x7b\x7bref:".data) =
      '\x7b' :: '\x7b' :: 'r' :: 'e' :: 'f' :: ':' :: ([] : List Char)
      from rfl]
    simp [List.isPrefixOf]
  · rename_i c' rest' heq
    injection heq with h1 h2
    subst h1; subst h2
    rfl

theorem refScan_open_none (rest : List Char) (hh : hashIdx rest = none) :
    refScan ('\x7b' :: '\x7b' :: 'r' :: 'e' :: 'f' :: ':' :: rest) =
      '\x7b' :: refScan ('\x7b' :: 'r' :: 'e' :: 'f' :: ':' :: rest) := by
  rw [refScan_open, hh]

theorem refScan_open_noclose (rest : List Char) (i : Nat)
    (hh : hashIdx rest = some i)
    (hcb : closeBraceIdx (rest.drop (i + 1)) = none) :
    refScan ('\x7b' :: '\x7b' :: 'r' :: 'e' :: 'f' :: ':' :: rest) =
      '\x7b' :: refScan ('\x7b' :: 'r' :: 'e' :: 'f' :: ':' :: rest) := by
  rw [refScan_open, hh]
  show (match closeBraceIdx (rest.drop (i + 1)) with
    | some j =>
        refReplacement (rest.take (i + 1 + j)) ++
          refScan (rest.drop (i + 1 + j + 2))
    | none =>
        '\x7b' :: refScan ('\x7b' :: 'r' :: 'e' :: 'f' :: ':' :: rest)) = _
  rw [hcb]

theorem refScan_open_match (rest : List Char) (i j : Nat)
    (hh : hashIdx rest = some i)
    (hcb : closeBraceIdx (rest.drop (i + 1)) = some j) :
    refScan ('\x7b' :: '\x7b' :: 'r' :: 'e' :: 'f' :: ':' :: rest) =
      refReplacement (rest.take (i + 1 + j)) ++
        refScan (rest.drop (i + 1 + j + 2)) := by
  rw [refScan_open, hh]
  show (match closeBraceIdx (rest.drop (i + 1)) with
    | some j =>
        refReplacement (rest.take (i + 1 + j)) ++
          refScan (rest.drop (i + 1 + j + 2))
    | none =>
        '\x7b' :: refScan ('\x7b' :: 'r' :: 'e' :: 'f' :: ':' :: rest)) = _
  rw [hcb]

theorem refScanSafe_open_none (rest : List Char) (hh : hashIdx rest = none) :
    refScanSafe ('\x7b' :: '\x7b' :: 'r' :: 'e' :: 'f' :: ':' :: rest) =
      '\x7b' :: refScanSafe ('\x7b' :: 'r' :: 'e' :: 'f' :: ':' :: rest) := by
  rw [refScanSafe_open, hh]

theorem refScanSafe_open_noclose (rest : List Char) (i : Nat)
    (hh : hashIdx rest = some i)
    (hcb : closeBraceIdx (rest.drop (i + 1)) = none) :
    refScanSafe ('\x7b' :: '\x7b' :: 'r' :: 'e' :: 'f' :: ':' :: rest) =
      '\x7b' :: refScanSafe ('\x7b' :: 'r' :: 'e' :: 'f' :: ':' :: rest) := by
  rw [refScanSafe_open, hh]
  show (match closeBraceIdx (rest.drop (i + 1)) with
    | some j =>
        (divPre.data ++ ensureSlash (trimSpace (rest.take i)) ++
          divMid.data ++ trimSpace ((rest.drop (i + 1)).take j) ++
          divPost.data) ++
          refScanSafe (rest.drop (i + 1 + j + 2))
    | none =>
        '\x7b' :: refScanSafe ('\x7b' :: 'r' :: 'e' :: 'f' :: ':' :: rest)) = _
  rw [hcb]

theorem refScanSafe_open_match (rest : List Char) (i j : Nat)
    (hh : hashIdx rest = some i)
    (hcb : closeBraceIdx (rest.drop (i + 1)) = some j) :
    refScanSafe ('\x7b' :: '\x7b' :: 'r' :: 'e' :: 'f' :: ':' :: rest) =
      (divPre.data ++ ensureSlash (trimSpace (rest.take i)) ++
        divMid.data ++ trimSpace ((rest.drop (i + 1)).take j) ++
        divPost.data) ++
        refScanSafe (rest.drop (i + 1 + j + 2)) := by
  rw [refScanSafe_open, hh]
  show (match closeBraceIdx (rest.drop (i + 1)) with
    | some j =>
        (divPre.data ++ ensureSlash (trimSpace (rest.take i)) ++
          divMid.data ++ trimSpace ((rest.drop (i + 1)).take j) ++
          divPost.data) ++
          refScanSafe (rest.drop (i + 1 + j + 2))
    | none =>
        '\x7b' :: refScanSafe ('\x7b' :: 'r' :: 'e' :: 'f' :: ':' :: rest)) = _
  rw [hcb]

theorem refScan_no_lbrace (cs : List Char) (h : ∀ c ∈ cs, c ≠ '\x7b') :
    refScan cs = cs := by
  induction cs with
  | nil => exact refScan_nil
  | cons c rest ih =>
      have hcp : ¬ ("\x7b\x7bref:".data.isPrefixOf (c :: rest) = true) := by
        intro hp
        rw [show ("\x7b\x7bref:".data) =
          '\x7b' :: '\x7b' :: 'r' :: 'e' :: 'f' :: ':' :: [] from rfl] at hp
        simp [List.isPrefixOf] at hp
        exact h c (List.mem_cons_self c rest) hp.1.symm
      rw [refScan_cons_not_open c rest hcp,
        ih (fun x hx => h x (List.mem_cons_of_mem c hx))]

theorem mem_refOpen_tail {c : Char} {t : List Char}
    (hc : c ∈ '\x7b' :: 'r' :: 'e' :: 'f' :: ':' :: t) :
    c ∈ "\x7b\x7bref:".data ++ t := by
  rw [show ("\x7b\x7bref:".data ++ t) =
    '\x7b' :: '\x7b' :: 'r' :: 'e' :: 'f' :: ':' :: t from rfl]
  simp only [List.mem_cons] at hc ⊢
  tauto

theorem refScan_no_hash (cs : List Char) (h : ∀ c ∈ cs, c ≠ '#') :
    refScan cs = cs := by
  by_cases hp : ("\x7b\x7bref:".data.isPrefixOf cs) = true
  · obtain ⟨t, ht⟩ := List.isPrefixOf_iff_prefix.mp hp
    rw [← ht] at h ⊢
    rw [show "\x7b\x7bref:".data ++ t =
      '\x7b' :: '\x7b' :: 'r' :: 'e' :: 'f' :: ':' :: t from rfl]
    rw [refScan_open_none t
      (hashIdx_none t (fun c hc => h c (List.mem_append_right _ hc)))]
    rw [refScan_no_hash ('\x7b' :: 'r' :: 'e' :: 'f' :: ':' :: t)
      (fun c hc => h c (mem_refOpen_tail hc))]
  · cases cs with
    | nil => exact refScan_nil
    | cons c rest =>
        rw [refScan_cons_not_open c rest hp,
          refScan_no_hash rest (fun x hx => h x (List.mem_cons_of_mem c hx))]
termination_by cs.length
decreasing_by
  · rw [← ht, List.length_append,
      show ("\x7b\x7bref:".data).length = 6 from rfl]
    simp only [List.length_cons]
    omega
  · simp_all

theorem refReplacement_eq (t : List Char) (i j : Nat)
    (hh : hashIdx t = some i) :
    refReplacement (t.take (i + 1 + j)) =
      divPre.data ++ ensureSlash (trimSpace (t.take i)) ++ divMid.data ++
        trimSpace ((t.drop (i + 1)).take j) ++ divPost.data := by
  obtain ⟨a, b, rfl, hlen, hno⟩ := hashIdx_spec t i hh
  subst hlen
  have h1 : (a ++ '#' :: b).take (a.length + 1 + j) = a ++ '#' :: b.take j := by
    rw [show a.length + 1 + j = a.length + (1 + j) from by omega,
      List.take_append, show (1 + j) = j + 1 from by omega]
    rfl
  have h2 : (a ++ '#' :: b).take a.length = a := List.take_left a _
  have h3 : (a ++ '#' :: b).drop (a.length + 1) = b := by
    rw [show a.length + 1 = a.length + 1 from rfl, List.drop_append 1]
    rfl
  rw [h1, h2, h3]
  unfold refReplacement
  rw [splitFirst_append '#' a (b.take j) hno]

theorem refScan_eq_safe (cs : List Char) : refScan cs = refScanSafe cs := by
  by_cases hp : ("\x7b\x7bref:".data.isPrefixOf cs) = true
  · obtain ⟨t, ht⟩ := List.isPrefixOf_iff_prefix.mp hp
    rw [← ht]
    rw [show "\x7b\x7bref:".data ++ t =
      '\x7b' :: '\x7b' :: 'r' :: 'e' :: 'f' :: ':' :: t from rfl]
    cases hh : hashIdx t with
    | none =>
        rw [refScan_open_none t hh, refScanSafe_open_none t hh,
          refScan_eq_safe ('\x7b' :: 'r' :: 'e' :: 'f' :: ':' :: t)]
    | some i =>
        cases hcb : closeBraceIdx (t.drop (i + 1)) with
        | none =>
            rw [refScan_open_noclose t i hh hcb,
              refScanSafe_open_noclose t i hh hcb,
              refScan_eq_safe ('\x7b' :: 'r' :: 'e' :: 'f' :: ':' :: t)]
        | some j =>
            rw [refScan_open_match t i j hh hcb,
              refScanSafe_open_match t i j hh hcb,
              refScan_eq_safe (t.drop (i + 1 + j + 2)),
              refReplacement_eq t i j hh]
  · cases cs with
    | nil => rw [refScan_nil, refScanSafe_nil]
    | cons c rest =>
        rw [refScan_cons_not_open c rest hp,
          refScanSafe_cons_not_open c rest hp, refScan_eq_safe rest]
termination_by cs.length
decreasing_by
  · rw [← ht, List.length_append,
      show ("\x7b\x7bref:".data).length = 6 from rfl]
    simp only [List.length_cons]
    omega
  · rw [← ht, List.length_append,
      show ("\x7b\x7bref:".data).length = 6 from rfl]
    simp only [List.length_cons]
    omega
  · rw [← ht, List.length_append,
      show ("\x7b\x7bref:".data).length = 6 from rfl]
    have := List.length_drop (i + 1 + j + 2) t
    omega
  · simp_all

/-- C9: the `Invalid Ref` error branch of the transclusion substitution
is unreachable — every matched interior contains a `#`, so the
two-part split always succeeds and `refScan` coincides with its
error-branch-free variant `refScanSafe`; and a directive with no `#` is
never matched at all: content containing no `#` passes through the pass
verbatim. -/
theorem invalid_ref_branch_unreachable :
    (∀ cs : List Char, refScan cs = refScanSafe cs) ∧
    (∀ cs : List Char, (∀ c ∈ cs, c ≠ '#') → refScan cs = cs) :=
  ⟨refScan_eq_safe, refScan_no_hash⟩

/-- Witness for C9: the no-`#` pass-through applied to a concrete
directive. -/
theorem invalid_ref_branch_unreachable_witness :
    refScan "\x7b\x7bref:onlyslug\x7d\x7d".data
      = "\x7b\x7bref:onlyslug\x7d\x7d".data :=
  invalid_ref_branch_unreachable.2 "\x7b\x7bref:onlyslug\x7d\x7d".data
    (by decide)

/-- C3 (counterexample): on the malformed directive
`\x7b\x7bref:onlyslug\x7d\x7d` the post-processing pass emits no
placeholder carrying `data-slug`/`data-id` — but it also emits no error
span: the directive passes through verbatim, so the output contains no
`<span` at all, contradicting the claimed visible inline error span. -/
theorem malformed_ref_no_error_span :
    processCustomSyntax "\x7b\x7bref:onlyslug\x7d\x7d"
        = "\x7b\x7bref:onlyslug\x7d\x7d" ∧
    containsSub "<span".data
      (processCustomSyntax "\x7b\x7bref:onlyslug\x7d\x7d").data = false ∧
    containsSub "data-slug".data
      (processCustomSyntax "\x7b\x7bref:onlyslug\x7d\x7d").data = false := by
  have h : processCustomSyntax "\x7b\x7bref:onlyslug\x7d\x7d"
      = "\x7b\x7bref:onlyslug\x7d\x7d" := by
    unfold processCustomSyntax
    rw [wikiScan_id _ (by decide), refScan_no_hash _ (by decide)]
  refine ⟨h, ?_, ?_⟩ <;> rw [h] <;> decide

/-- C3 (amended): a transclusion directive lacking a `#` part is never
matched by the transclusion regex, so the pass emits no placeholder
with `data-slug`/`data-id` for it — but it emits no error span either:
in content free of `#` and of wiki-link openings, the post-processing
pass is the identity and the directive passes through verbatim. -/
theorem malformed_ref_passthrough (s : String)
    (h : ∀ c ∈ s.data, c ≠ '#' ∧ c ≠ '[') :
    processCustomSyntax s = s := by
  unfold processCustomSyntax
  rw [wikiScan_id s.data (fun c hc => (h c hc).2),
    refScan_no_hash s.data (fun c hc => (h c hc).1)]

/-- Witness for the amended C3 at the claim's concrete input. -/
theorem malformed_ref_passthrough_witness :
    processCustomSyntax "\x7b\x7bref:onlyslug\x7d\x7d"
      = "\x7b\x7bref:onlyslug\x7d\x7d" :=
  malformed_ref_passthrough "\x7b\x7bref:onlyslug\x7d\x7d" (by decide)

theorem linkCharOk_spec {c : Char} (h : linkCharOk c = true) :
    c ≠ '[' ∧ c ≠ ']' ∧ c ≠ '|' ∧ c ≠ '\x7b' ∧ c ≠ '\n' := by
  simp [linkCharOk] at h
  tauto

theorem mem_ensureSlash {l : List Char} {c : Char}
    (hc : c ∈ ensureSlash l) : c = '/' ∨ c ∈ l := by
  unfold ensureSlash at hc
  split at hc
  · exact Or.inr hc
  · rcases List.mem_cons.mp hc with rfl | h
    · exact Or.inl rfl
    · exact Or.inr h

theorem wikiScan_single (inner : List Char)
    (hno : ∀ c ∈ inner, c ≠ ']' ∧ c ≠ '\n') :
    wikiScan ('[' :: '[' :: (inner ++ ']' :: ']' :: [])) =
      wikiReplacement inner := by
  rw [wikiScan_open, closeIdx_append inner [] hno]
  show wikiReplacement ((inner ++ ']' :: ']' :: []).take inner.length) ++
      wikiScan ((inner ++ ']' :: ']' :: []).drop (inner.length + 2)) =
    wikiReplacement inner
  rw [List.take_left inner _, List.drop_append 2]
  show wikiReplacement inner ++ wikiScan [] = wikiReplacement inner
  rw [wikiScan_nil, List.append_nil]

theorem wikiReplacement_no_pipe (inner : List Char)
    (hp : ∀ c ∈ inner, c ≠ '|') :
    wikiReplacement inner =
      anchorPre.data ++ ensureSlash (trimSpace inner) ++ anchorMid.data ++
        trimSpace inner ++ anchorPost.data := by
  unfold wikiReplacement
  rw [splitFirst_none '|' inner hp]

theorem wikiReplacement_pipe (a b : List Char) (hp : ∀ c ∈ a, c ≠ '|') :
    wikiReplacement (a ++ '|' :: b) =
      anchorPre.data ++ ensureSlash (trimSpace a) ++ anchorMid.data ++
        trimSpace b ++ anchorPost.data := by
  unfold wikiReplacement
  rw [splitFirst_append '|' a b hp]

theorem anchor_chars_ok (u v : List Char) (p : Char → Prop)
    (hpre : ∀ c ∈ anchorPre.data, p c) (hmid : ∀ c ∈ anchorMid.data, p c)
    (hpost : ∀ c ∈ anchorPost.data, p c) (hu : ∀ c ∈ u, p c)
    (hv : ∀ c ∈ v, p c) :
    ∀ c ∈ anchorPre.data ++ u ++ anchorMid.data ++ v ++ anchorPost.data,
      p c := by
  intro c hc
  simp only [List.mem_append] at hc
  rcases hc with ((((h | h) | h) | h) | h)
  exacts [hpre c h, hu c h, hmid c h, hv c h, hpost c h]

set_option maxRecDepth 8192 in
/-- The full pass leaves an already-built anchor (with delimiter-free
slug and text) unchanged: no `[` survives for the wiki pass and no
opening brace survives for the transclusion pass. -/
theorem process_anchor_fixed (u v : List Char)
    (hu : ∀ c ∈ u, c ≠ '[' ∧ c ≠ '\x7b')
    (hv : ∀ c ∈ v, c ≠ '[' ∧ c ≠ '\x7b') :
    refScan (wikiScan
        (anchorPre.data ++ u ++ anchorMid.data ++ v ++ anchorPost.data)) =
      anchorPre.data ++ u ++ anchorMid.data ++ v ++ anchorPost.data := by
  rw [wikiScan_id _ (anchor_chars_ok u v (· ≠ '[') (by decide) (by decide)
      (by decide) (fun c hc => (hu c hc).1) (fun c hc => (hv c hc).1)),
    refScan_no_lbrace _ (anchor_chars_ok u v (· ≠ '\x7b') (by decide)
      (by decide) (by decide) (fun c hc => (hu c hc).2)
      (fun c hc => (hv c hc).2))]

set_option maxRecDepth 8192 in
/-- C6: a well-formed internal link directive expands to exactly one
anchor element whose href is `#` followed by the slug prefixed with `/`
if not already, and whose visible text is the display text when given,
or the slug itself otherwise; applying the pass again to its own output
leaves it unchanged. -/
theorem wiki_link_expansion (s t : String) (hs : linkPartOk s)
    (ht : linkPartOk t) :
    processCustomSyntax ("[[" ++ s ++ "]]") =
        anchorPre ++ String.mk (ensureSlash s.data) ++ anchorMid ++ s ++
          anchorPost ∧
    processCustomSyntax ("[[" ++ s ++ "|" ++ t ++ "]]") =
        anchorPre ++ String.mk (ensureSlash s.data) ++ anchorMid ++ t ++
          anchorPost ∧
    processCustomSyntax (processCustomSyntax ("[[" ++ s ++ "]]")) =
        processCustomSyntax ("[[" ++ s ++ "]]") ∧
    processCustomSyntax (processCustomSyntax ("[[" ++ s ++ "|" ++ t ++ "]]"))
        = processCustomSyntax ("[[" ++ s ++ "|" ++ t ++ "]]") := by
  obtain ⟨hsne, hsch, hstrim⟩ := hs
  obtain ⟨htne, htch, httrim⟩ := ht
  have hsdel := fun c hc => linkCharOk_spec (hsch c hc)
  have htdel := fun c hc => linkCharOk_spec (htch c hc)
  have hslash : ∀ c ∈ ensureSlash s.data, c ≠ '[' ∧ c ≠ '\x7b' := by
    intro c hc
    rcases mem_ensureSlash hc with rfl | h
    · exact ⟨by decide, by decide⟩
    · exact ⟨(hsdel c h).1, (hsdel c h).2.2.2.1⟩
  have hd1 : ("[[" ++ s ++ "]]").data =
      '[' :: '[' :: (s.data ++ ']' :: ']' :: []) := by
    rw [String.data_append, String.data_append]
    rfl
  have hd2 : ("[[" ++ s ++ "|" ++ t ++ "]]").data =
      '[' :: '[' :: ((s.data ++ '|' :: t.data) ++ ']' :: ']' :: []) := by
    rw [String.data_append, String.data_append, String.data_append,
      String.data_append]
    apply @List.append_cancel_left Char ['[', '['] _ _
    simp
  have key1 : processCustomSyntax ("[[" ++ s ++ "]]") =
      anchorPre ++ String.mk (ensureSlash s.data) ++ anchorMid ++ s ++
        anchorPost := by
    unfold processCustomSyntax
    rw [hd1, wikiScan_single s.data
        (fun c hc => ⟨(hsdel c hc).2.1, (hsdel c hc).2.2.2.2⟩),
      wikiReplacement_no_pipe s.data (fun c hc => (hsdel c hc).2.2.1),
      hstrim,
      refScan_no_lbrace _ (anchor_chars_ok (ensureSlash s.data) s.data
        (· ≠ '\x7b') (by decide) (by decide) (by decide)
        (fun c hc => (hslash c hc).2) (fun c hc => (hsdel c hc).2.2.2.1))]
    apply string_ext
    rw [String.data_append, String.data_append, String.data_append,
      String.data_append]
  have key2 : processCustomSyntax ("[[" ++ s ++ "|" ++ t ++ "]]") =
      anchorPre ++ String.mk (ensureSlash s.data) ++ anchorMid ++ t ++
        anchorPost := by
    unfold processCustomSyntax
    rw [hd2, wikiScan_single (s.data ++ '|' :: t.data) ?hinner,
      wikiReplacement_pipe s.data t.data (fun c hc => (hsdel c hc).2.2.1),
      hstrim, httrim,
      refScan_no_lbrace _ (anchor_chars_ok (ensureSlash s.data) t.data
        (· ≠ '\x7b') (by decide) (by decide) (by decide)
        (fun c hc => (hslash c hc).2) (fun c hc => (htdel c hc).2.2.2.1))]
    · apply string_ext
      rw [String.data_append, String.data_append, String.data_append,
        String.data_append]
    case hinner =>
      intro c hc
      rcases List.mem_append.mp hc with h | h
      · exact ⟨(hsdel c h).2.1, (hsdel c h).2.2.2.2⟩
      · rcases List.mem_cons.mp h with rfl | h'
        · exact ⟨by decide, by decide⟩
        · exact ⟨(htdel c h').2.1, (htdel c h').2.2.2.2⟩
  refine ⟨key1, key2, ?_, ?_⟩
  · rw [key1]
    unfold processCustomSyntax
    rw [show (anchorPre ++ String.mk (ensureSlash s.data) ++ anchorMid ++
        s ++ anchorPost).data =
      anchorPre.data ++ ensureSlash s.data ++ anchorMid.data ++ s.data ++
        anchorPost.data from by
      rw [String.data_append, String.data_append, String.data_append,
        String.data_append]]
    rw [process_anchor_fixed (ensureSlash s.data) s.data hslash
      (fun c hc => ⟨(hsdel c hc).1, (hsdel c hc).2.2.2.1⟩)]
    apply string_ext
    rw [String.data_append, String.data_append, String.data_append,
      String.data_append]
  · rw [key2]
    unfold processCustomSyntax
    rw [show (anchorPre ++ String.mk (ensureSlash s.data) ++ anchorMid ++
        t ++ anchorPost).data =
      anchorPre.data ++ ensureSlash s.data ++ anchorMid.data ++ t.data ++
        anchorPost.data from by
      rw [String.data_append, String.data_append, String.data_append,
        String.data_append]]
    rw [process_anchor_fixed (ensureSlash s.data) t.data hslash
      (fun c hc => ⟨(htdel c hc).1, (htdel c hc).2.2.2.1⟩)]
    apply string_ext
    rw [String.data_append, String.data_append, String.data_append,
      String.data_append]

set_option maxRecDepth 8192 in
/-- Witness for C6 at the claim's concrete inputs: `[[guide|Read the
Guide]]` yields the anchor with href `#/guide` and text `Read the
Guide`. -/
theorem wiki_link_expansion_witness :
    linkPartOk "guide" ∧ linkPartOk "Read the Guide" ∧
    processCustomSyntax "[[guide|Read the Guide]]" =
      "<a href=\"#/guide\" class=\"text-blue-600 dark:text-blue-400 font-medium transition-colors hover:text-blue-800 dark:hover:text-blue-300\">Read the Guide</a>" := by
  refine ⟨by unfold linkPartOk; decide, by unfold linkPartOk; decide, ?_⟩
  have h :=
    (wiki_link_expansion "guide" "Read the Guide"
      (by unfold linkPartOk; decide) (by unfold linkPartOk; decide)).2.1
  rw [show ("[[guide|Read the Guide]]" : String) =
    "[[" ++ "guide" ++ "|" ++ "Read the Guide" ++ "]]" from by decide]
  rw [h]
  apply string_ext
  decide

end GoBlog
